import Mathlib

/-!
Verification of `watch_n_serve` (src/main.ts), a local development HTTP
server that serves static files and pushes reload notifications to
connected clients when watched files change.

The development shallowly embeds the two components of `main.ts`:

* `Watcher.watch` (lines 25-61): counter-based trailing debounce.  Each raw
  filesystem event increments an `outstanding` counter and schedules a
  deferred callback `minimumDelayMS` later; a callback that decrements the
  counter to zero dispatches one `updated` notification.  We model the
  single-threaded event loop as a time-ordered list of `WatchAction`s
  (event arrivals and deferred callbacks) folded over a step function.
  When an arrival and a callback fall on the same instant the model
  processes the arrival first, matching the spec's reading that events
  spaced exactly the debounce interval apart belong to one burst.

* `Server.serve` (lines 102-175): path resolution, reload-script
  injection, 404 handling, push-client registration/removal and
  broadcast.  Strings are modelled as `List Char`; the filesystem as a
  function `List Char → Option (List Char)`.
-/


/-- One event-loop occurrence inside `Watcher.watch`: a raw filesystem
event arriving at time `t` (line 41), or the deferred `update` callback
scheduled by `setTimeout` firing at time `t` (line 44). -/
inductive WatchAction where
  | arrival (t : Nat)
  | callback (t : Nat)
deriving DecidableEq, Repr

/-- Mutable state of the closure inside `Watcher.watch`: the
`outstanding` counter (line 30) and the times at which
`dispatchEvent(new WatcherUpdatedEvent())` has run (line 34).  The
counter is given type `Int` so that the model itself cannot hide a
negative value. -/
structure WatchRun where
  outstanding : Int
  notifications : List Nat
deriving DecidableEq, Repr

/-- One step of the event loop of `Watcher.watch` (lines 31-45): an
arrival runs `++outstanding` (and schedules a callback, which the action
list already carries); a callback runs `update`, i.e. `--outstanding`
followed by a notification exactly when the counter reached zero. -/
def watchStep (s : WatchRun) (a : WatchAction) : WatchRun :=
  match a with
  | .arrival _ => { s with outstanding := s.outstanding + 1 }
  | .callback t =>
    let o := s.outstanding - 1
    { outstanding := o
      notifications := if o = 0 then s.notifications ++ [t] else s.notifications }

/-- Time-ordered interleaving of event arrivals `as` and deferred
callback firings `cs` (both given in increasing time order): the earlier
occurrence goes first, and an arrival is processed before a callback due
at the same instant. -/
def mergeEvents (as cs : List Nat) : List WatchAction :=
  match as, cs with
  | [], cs => cs.map WatchAction.callback
  | a :: as1, [] => WatchAction.arrival a :: mergeEvents as1 []
  | a :: as1, c :: cs1 =>
    if a ≤ c then WatchAction.arrival a :: mergeEvents as1 (c :: cs1)
    else WatchAction.callback c :: mergeEvents (a :: as1) cs1
termination_by as.length + cs.length

/-- The full event-loop schedule for raw events at times `ts` (in
arrival order) with debounce interval `d`: the callback for the event at
time `t` fires at `t + d` (line 44, `setTimeout(update, minimumDelayMS)`). -/
def schedule (ts : List Nat) (d : Nat) : List WatchAction :=
  mergeEvents ts (ts.map (· + d))

/-- Complete run of the debounce logic of `Watcher.watch` on raw events
at times `ts` with debounce interval `d`, starting from `outstanding = 0`
(line 30) and no notifications. -/
def watchRun (ts : List Nat) (d : Nat) : WatchRun :=
  (schedule ts d).foldl watchStep ⟨0, []⟩

/-- Notifications produced by a run of callbacks only (no arrivals left),
starting from counter value `o`: each callback decrements, notifying at
the callback whose decrement reaches zero. -/
def callbackNotifs (o : Int) (cs : List Nat) : List Nat :=
  match cs with
  | [] => []
  | c :: cs1 =>
    if o - 1 = 0 then c :: callbackNotifs (o - 1) cs1
    else callbackNotifs (o - 1) cs1

/-- Notification times of the merged run of arrivals `as` and callbacks
`cs` starting from counter value `o`, computed directly by recursion over
the same case split as `mergeEvents`. -/
def simNotifs (o : Int) (as cs : List Nat) : List Nat :=
  match as, cs with
  | [], cs => callbackNotifs o cs
  | _ :: as1, [] => simNotifs (o + 1) as1 []
  | a :: as1, c :: cs1 =>
    if a ≤ c then simNotifs (o + 1) as1 (c :: cs1)
    else if o - 1 = 0 then c :: simNotifs (o - 1) (a :: as1) cs1
    else simNotifs (o - 1) (a :: as1) cs1
termination_by as.length + cs.length

/-- Closed-form description of the notification times: the `j`-th
callback (firing at time `cs.getD j 0`) notifies exactly when the counter
`o` plus the number of arrivals processed up to that instant equals the
number of callbacks processed, i.e. `o + #{t ∈ as | t ≤ cs_j} = j + 1`. -/
def notifSpec (o : Int) (as cs : List Nat) : List Nat :=
  (List.range cs.length).filterMap fun (j : Nat) =>
    if o + (as.countP fun t => decide (t ≤ cs.getD j 0)) = (j : Int) + 1 then
      some (cs.getD j 0)
    else none

/-- Whether a `WatchAction` is a raw-event arrival. -/
def isArrival : WatchAction → Bool
  | .arrival _ => true
  | .callback _ => false

/-- Number of raw-event arrivals processed in an action list; each
arrival schedules exactly one deferred callback (src/main.ts lines 43-44). -/
def countArr (p : List WatchAction) : Nat := p.countP isArrival

/-- Number of deferred callbacks that have run in an action list. -/
def countCb (p : List WatchAction) : Nat := p.countP fun a => !isArrival a

/-- Pointwise coupling between remaining arrivals and remaining
callbacks during a merge: each remaining arrival comes no later than its
own still-pending callback. -/
def Coupled (as cs : List Nat) : Prop :=
  as.length ≤ cs.length ∧
    ∀ k, k < as.length → as.getD k 0 ≤ cs.getD (k + (cs.length - as.length)) 0

/-- State of a `Watcher` object as far as `watch()` is concerned
(src/main.ts lines 16, 25-61): the `watching` flag and the number of
`Deno.watchFs` monitoring loops that have been started (line 39). -/
structure WatcherState where
  watching : Bool
  loopsStarted : Nat
deriving DecidableEq, Repr

/-- The `watch()` method (lines 25-61): if not already watching, set the
flag and start one monitoring loop; otherwise change nothing. -/
def watchCall (s : WatcherState) : WatcherState :=
  if s.watching then s else { watching := true, loopsStarted := s.loopsStarted + 1 }

/-- State of `Watcher.watch` including the abort path (lines 48-55):
the `watching` flag, whether `watcher.close()` has been called on the
`Deno.watchFs` handle, the outstanding counter and the notification
times. -/
structure AWatchState where
  watching : Bool
  fsClosed : Bool
  outstanding : Int
  notifications : List Nat
deriving DecidableEq, Repr

/-- Event-loop actions including the abort listener firing. -/
inductive AAction where
  | arrival (t : Nat)
  | callback (t : Nat)
  | abort
deriving DecidableEq, Repr

/-- Event-loop step including the abort handler (lines 50-54): aborting
closes the filesystem watcher and clears `watching`; it does not touch
`outstanding` and cancels no pending `setTimeout` callback, so callbacks
still run after it exactly as in `update` (lines 31-36). -/
def abortStep (s : AWatchState) (a : AAction) : AWatchState :=
  match a with
  | .arrival _ => { s with outstanding := s.outstanding + 1 }
  | .callback t =>
    let o := s.outstanding - 1
    { s with
        outstanding := o
        notifications := if o = 0 then s.notifications ++ [t] else s.notifications }
  | .abort => { s with watching := false, fsClosed := true }

/-- Characters of the extension `".html"` tested on line 142. -/
def htmlExt : List Char := ".html".toList

/-- Characters of the closing tag `"</body>"` searched on line 145. -/
def bodyTag : List Char := "</body>".toList

/-- Characters of `"index.html"` appended on line 138. -/
def indexHtml : List Char := "index.html".toList

/-- Characters of the literal push message `"updated"` sent on line 107. -/
def updatedMsg : List Char := "updated".toList

/-- Characters of the reserved upgrade path (line 98). -/
def reloadEventPath : List Char := "/.watch_n_serve/events".toList

/-- Model of `text.lastIndexOf(pat)` (JS semantics, as used on line 145),
scanning candidate positions from `i` down to `0` and returning the
first (hence largest) position where `pat` occurs. -/
def lastIndexAux (pat s : List Char) : Nat → Option Nat
  | 0 => if pat <+: s then some 0 else none
  | i + 1 => if pat <+: s.drop (i + 1) then some (i + 1) else lastIndexAux pat s i

/-- The largest index at which `pat` occurs in `s`, if any. -/
def lastIndexOf (pat s : List Char) : Option Nat := lastIndexAux pat s s.length

/-- Reload-script insertion (lines 144-151): insert `script` immediately
before the last occurrence of `</body>`, or append it at the end when
there is none.  (`text.substr(0, i)` is `take i`, `text.substr(i)` is
`drop i`.) -/
def injectScript (script text : List Char) : List Char :=
  match lastIndexOf bodyTag text with
  | some i => text.take i ++ script ++ text.drop i
  | none => text ++ script

/-- Content transformation of `Server.serve` (lines 141-153): with a
watcher configured and a resolved path ending in `.html`, inject the
reload script (the script text itself is `this.reloadScript` and is kept
abstract here); otherwise the bytes pass through unchanged. -/
def serveContent (watching : Bool) (script path content : List Char) : List Char :=
  if watching = true ∧ htmlExt <:+ path then injectScript script content else content

/-- Path resolution of line 138: the root concatenated with the URL
path, with `index.html` appended when the path ends in `/`. -/
def resolvePath (root pathname : List Char) : List Char :=
  root ++ (if ['/'] <:+ pathname then pathname ++ indexHtml else pathname)

/-- An HTTP response: status code and body bytes. -/
structure Response where
  status : Nat
  body : List Char
deriving DecidableEq, Repr

/-- Server state shared across requests: whether a watcher is configured
(`this.watcher`, line 94), the registered push clients
(`this.reloadClients`, line 86, identified by the order in which they
were upgraded), and the next fresh client identifier. -/
structure ServerState where
  watcherOn : Bool
  reloadClients : List Nat
  nextClientId : Nat
deriving DecidableEq, Repr

/-- File-request handling (lines 138-161): read the resolved file
(`fs` models `Deno.readFile`, `none` standing for any failure); on
success respond 200 with the possibly instrumented bytes; on any failure
respond 404 with an empty body. -/
def handleFileRequest (fs : List Char → Option (List Char)) (watching : Bool)
    (script root pathname : List Char) : Response :=
  match fs (resolvePath root pathname) with
  | some content => ⟨200, serveContent watching script (resolvePath root pathname) content⟩
  | none => ⟨404, []⟩

/-- Per-request dispatch (lines 127-161): with a watcher configured, the
reserved path upgrades the connection and registers a fresh push client
(lines 130-136); every other request is served as a file and leaves the
server state untouched. -/
def handleRequest (fs : List Char → Option (List Char)) (script root : List Char)
    (s : ServerState) (pathname : List Char) : ServerState × Response :=
  if s.watcherOn = true ∧ pathname = reloadEventPath then
    ({ s with
        reloadClients := s.reloadClients ++ [s.nextClientId]
        nextClientId := s.nextClientId + 1 }, ⟨101, []⟩)
  else (s, handleFileRequest fs s.watcherOn script root pathname)

/-- Model of `reloadClients.indexOf(socket)` (line 134, JS semantics): index of
the first occurrence, or none (JS `-1`) when absent. -/
def indexOfJS (cs : List Nat) (c : Nat) : Option Nat :=
  match cs with
  | [] => none
  | x :: cs1 => if x = c then some 0 else (indexOfJS cs1 c).map (· + 1)

/-- The close handler's `reloadClients.splice(reloadClients.indexOf(socket), 1)`
(line 134): remove the element at the first index of `c`; when `c` is
absent, JS `indexOf` yields `-1` and `splice(-1, 1)` removes the last
element. -/
def spliceRemove (cs : List Nat) (c : Nat) : List Nat :=
  match indexOfJS cs c with
  | some i => cs.eraseIdx i
  | none => cs.dropLast

/-- Push-client lifecycle events: a successful upgrade registers a fresh
client (line 132); a close event on a client's socket splices it out
(lines 133-135). -/
inductive ClientEvent where
  | connect
  | close (c : Nat)
deriving DecidableEq, Repr

/-- Push-client bookkeeping of `Server.serve` over one lifecycle event. -/
def clientStep (s : ServerState) : ClientEvent → ServerState
  | .connect =>
    { s with
        reloadClients := s.reloadClients ++ [s.nextClientId]
        nextClientId := s.nextClientId + 1 }
  | .close c => { s with reloadClients := spliceRemove s.reloadClients c }

/-- The `updated` broadcast loop (lines 104-112): iterate over the
registered clients in order; for each one attempt `socket.send("updated")`;
a send failure (`ok c = false`) is caught and ignored and the loop
continues.  Returns the attempted sends and the delivered sends. -/
def broadcastLoop (ok : Nat → Bool) : List Nat → List (Nat × List Char) × List (Nat × List Char)
  | [] => ([], [])
  | c :: cs =>
    let r := broadcastLoop ok cs
    ((c, updatedMsg) :: r.1, (if ok c then [(c, updatedMsg)] else []) ++ r.2)

/-- A full broadcast: run the loop over the current client list; the
loop itself never mutates the client list. -/
def broadcastStep (ok : Nat → Bool) (s : ServerState) :
    ServerState × List (Nat × List Char) × List (Nat × List Char) :=
  (s, broadcastLoop ok s.reloadClients)

/-- The invariant maintained by the push-client bookkeeping: the
broadcast set never holds duplicates, and every registered identifier is
below the fresh-identifier counter. -/
def ClientsInv (s : ServerState) : Prop :=
  s.reloadClients.Nodup ∧ ∀ c ∈ s.reloadClients, c < s.nextClientId

lemma foldl_callbacks (cs : List Nat) (o : Int) (ns : List Nat) :
    (cs.map WatchAction.callback).foldl watchStep ⟨o, ns⟩ =
      ⟨o - cs.length, ns ++ callbackNotifs o cs⟩ := by
  induction cs generalizing o ns with
  | nil => simp [callbackNotifs]
  | cons c cs ih =>
    simp only [List.map_cons, List.foldl_cons]
    rw [show watchStep ⟨o, ns⟩ (WatchAction.callback c) =
      ⟨o - 1, if o - 1 = 0 then ns ++ [c] else ns⟩ from rfl, ih]
    simp only [callbackNotifs, WatchRun.mk.injEq, List.length_cons]
    constructor
    · push_cast
      ring
    · by_cases ho : o - 1 = 0 <;> simp [ho, List.append_assoc]

lemma foldl_mergeEvents (as cs : List Nat) (o : Int) (ns : List Nat) :
    (mergeEvents as cs).foldl watchStep ⟨o, ns⟩ =
      ⟨o + as.length - cs.length, ns ++ simNotifs o as cs⟩ := by
  induction as, cs using mergeEvents.induct generalizing o ns with
  | case1 cs =>
    simp only [mergeEvents, simNotifs, foldl_callbacks]
    simp
  | case2 a as1 ih =>
    simp only [mergeEvents, List.foldl_cons]
    rw [show watchStep ⟨o, ns⟩ (WatchAction.arrival a) = ⟨o + 1, ns⟩ from rfl, ih]
    simp only [simNotifs, WatchRun.mk.injEq, List.length_cons, List.length_nil]
    refine ⟨by push_cast; ring, by trivial⟩
  | case3 a as1 c cs1 h ih =>
    simp only [mergeEvents, if_pos h, List.foldl_cons]
    rw [show watchStep ⟨o, ns⟩ (WatchAction.arrival a) = ⟨o + 1, ns⟩ from rfl, ih]
    simp only [simNotifs, if_pos h, WatchRun.mk.injEq, List.length_cons]
    refine ⟨by push_cast; ring, by trivial⟩
  | case4 a as1 c cs1 h ih =>
    simp only [mergeEvents, if_neg h, List.foldl_cons]
    rw [show watchStep ⟨o, ns⟩ (WatchAction.callback c) =
      ⟨o - 1, if o - 1 = 0 then ns ++ [c] else ns⟩ from rfl, ih]
    simp only [simNotifs, if_neg h, WatchRun.mk.injEq, List.length_cons]
    refine ⟨by push_cast; ring, ?_⟩
    by_cases ho : o - 1 = 0 <;> simp [ho, List.append_assoc]

lemma filterMapEq {α β : Type} (l : List α) (f g : α → Option β)
    (h : ∀ x ∈ l, f x = g x) : l.filterMap f = l.filterMap g := by
  induction l with
  | nil => rfl
  | cons a l ih =>
    simp only [List.filterMap_cons, h a (List.mem_cons_self a l)]
    rw [ih fun x hx => h x (List.mem_cons_of_mem a hx)]

lemma callbackNotifs_eq (o : Int) (cs : List Nat) :
    callbackNotifs o cs =
      (List.range cs.length).filterMap fun (j : Nat) =>
        if o = (j : Int) + 1 then some (cs.getD j 0) else none := by
  induction cs generalizing o with
  | nil => simp [callbackNotifs]
  | cons c cs ih =>
    rw [callbackNotifs, List.length_cons, List.range_succ_eq_map,
      List.filterMap_cons, List.filterMap_map]
    have hshift :
        (List.range cs.length).filterMap
            ((fun (j : Nat) => if o = (j : Int) + 1 then some ((c :: cs).getD j 0) else none) ∘
              Nat.succ) =
          (List.range cs.length).filterMap
            (fun (j : Nat) => if o - 1 = (j : Int) + 1 then some (cs.getD j 0) else none) := by
      refine filterMapEq _ _ _ fun j _ => ?_
      simp only [Function.comp_apply, List.getD_cons_succ]
      by_cases hc : o - 1 = (j : Int) + 1
      · rw [if_pos hc, if_pos (by push_cast; omega)]
      · rw [if_neg hc, if_neg (by push_cast; omega)]
    rw [hshift, ← ih (o - 1)]
    by_cases ho : o - 1 = 0
    · rw [if_pos ho, if_pos (by omega)]
      simp
    · rw [if_neg ho, if_neg (by push_cast; omega)]

lemma getDMem (l : List Nat) (j : Nat) (hj : j < l.length) : l.getD j 0 ∈ l := by
  rw [List.getD_eq_getElem _ _ hj]
  exact List.getElem_mem hj

lemma notifSpec_nil_cs (o : Int) (as : List Nat) : notifSpec o as [] = [] := by
  simp [notifSpec]

lemma notifSpec_cons (o : Int) (as : List Nat) (c : Nat) (cs1 : List Nat)
    (hcount0 : (as.countP fun t => decide (t ≤ c)) = 0) :
    notifSpec o as (c :: cs1) =
      (if o - 1 = 0 then [c] else []) ++ notifSpec (o - 1) as cs1 := by
  have hshift :
      (List.range cs1.length).filterMap
          ((fun (j : Nat) =>
              if o + (as.countP fun t => decide (t ≤ (c :: cs1).getD j 0)) = (j : Int) + 1 then
                some ((c :: cs1).getD j 0)
              else none) ∘ Nat.succ) =
        notifSpec (o - 1) as cs1 := by
    simp only [notifSpec]
    refine filterMapEq _ _ _ fun j _ => ?_
    simp only [Function.comp_apply, List.getD_cons_succ]
    by_cases hc2 : o - 1 + ((as.countP fun t => decide (t ≤ cs1.getD j 0)) : Int) = (j : Int) + 1
    · rw [if_pos (by push_cast at hc2 ⊢; omega), if_pos hc2]
    · rw [if_neg (by push_cast at hc2 ⊢; omega), if_neg hc2]
  simp only [notifSpec, List.length_cons, List.range_succ_eq_map, List.filterMap_cons]
  simp only [List.getD_cons_zero, hcount0, Nat.cast_zero, Nat.cast_ofNat, add_zero]
  by_cases ho : o - 1 = 0
  · rw [if_pos (show o = 0 + 1 by omega), if_pos ho]
    simp only [List.filterMap_map] at hshift ⊢
    rw [hshift]
    rfl
  · rw [if_neg (show ¬o = 0 + 1 by omega), if_neg ho]
    simp only [List.filterMap_map] at hshift ⊢
    rw [hshift]
    rfl

lemma simNotifs_eq : ∀ (o : Int) (as cs : List Nat), as.Pairwise (· ≤ ·) →
    cs.Pairwise (· ≤ ·) → simNotifs o as cs = notifSpec o as cs := by
  intro o as cs
  induction o, as, cs using simNotifs.induct with
  | case1 o cs =>
    intro _ _
    simp only [simNotifs, notifSpec, List.countP_nil, Nat.cast_zero, add_zero]
    exact callbackNotifs_eq o cs
  | case2 o a as1 ih =>
    intro ha _
    rw [show simNotifs o (a :: as1) [] = simNotifs (o + 1) as1 [] from by rw [simNotifs],
      ih ha.of_cons List.Pairwise.nil, notifSpec_nil_cs, notifSpec_nil_cs]
  | case3 o a as1 c cs1 h ih =>
    intro ha hc
    rw [show simNotifs o (a :: as1) (c :: cs1) = simNotifs (o + 1) as1 (c :: cs1) from by
      rw [simNotifs, if_pos h], ih ha.of_cons hc]
    refine filterMapEq _ _ _ fun j hj => ?_
    have hjlen : j < (c :: cs1).length := List.mem_range.mp hj
    have haj : a ≤ (c :: cs1).getD j 0 := by
      rcases List.mem_cons.mp (getDMem _ _ hjlen) with h1 | h1
      · rw [h1]; exact h
      · exact le_trans h ((List.pairwise_cons.mp hc).1 _ h1)
    have hcount : ((a :: as1).countP fun t => decide (t ≤ (c :: cs1).getD j 0)) =
        (as1.countP fun t => decide (t ≤ (c :: cs1).getD j 0)) + 1 := by
      rw [List.countP_cons, if_pos (decide_eq_true haj)]
    rw [hcount]
    by_cases hcnd : o + 1 + ((as1.countP fun t => decide (t ≤ (c :: cs1).getD j 0)) : Int) =
        (j : Int) + 1
    · rw [if_pos hcnd, if_pos (by push_cast at hcnd ⊢; omega)]
    · rw [if_neg hcnd, if_neg (by push_cast at hcnd ⊢; omega)]
  | case4 o a as1 c cs1 h h2 ih =>
    intro ha hc
    have hcount0 : ((a :: as1).countP fun t => decide (t ≤ c)) = 0 := by
      rw [List.countP_eq_zero]
      intro x hx
      rcases List.mem_cons.mp hx with h1 | h1
      · simp [h1]; omega
      · have : a ≤ x := (List.pairwise_cons.mp ha).1 _ h1
        simp; omega
    rw [show simNotifs o (a :: as1) (c :: cs1) = c :: simNotifs (o - 1) (a :: as1) cs1 from by
      rw [simNotifs, if_neg h, if_pos h2], ih ha hc.of_cons, notifSpec_cons o _ _ _ hcount0,
      if_pos h2]
    rfl
  | case5 o a as1 c cs1 h h2 ih =>
    intro ha hc
    have hcount0 : ((a :: as1).countP fun t => decide (t ≤ c)) = 0 := by
      rw [List.countP_eq_zero]
      intro x hx
      rcases List.mem_cons.mp hx with h1 | h1
      · simp [h1]; omega
      · have : a ≤ x := (List.pairwise_cons.mp ha).1 _ h1
        simp; omega
    rw [show simNotifs o (a :: as1) (c :: cs1) = simNotifs (o - 1) (a :: as1) cs1 from by
      rw [simNotifs, if_neg h, if_neg h2], ih ha hc.of_cons, notifSpec_cons o _ _ _ hcount0,
      if_neg h2]
    rfl

lemma watchRun_notifs (ts : List Nat) (d : Nat) (hs : ts.Pairwise (· ≤ ·)) :
    (watchRun ts d).notifications = notifSpec 0 ts (ts.map (· + d)) := by
  rw [watchRun, schedule, foldl_mergeEvents ts _ 0 []]
  have hmap : (ts.map (· + d)).Pairwise (· ≤ ·) :=
    List.Pairwise.map _ (fun a b hab => by omega) hs
  simpa using simNotifs_eq 0 ts _ hs hmap

lemma getElemIdx (l : List Nat) (i j : Nat) (hij : i = j) (hi : i < l.length) :
    l[i] = l[j] := by
  subst hij
  rfl

lemma countLower (l : List Nat) (hp : l.Pairwise (· ≤ ·)) (i : Nat) (hi : i < l.length)
    (x : Nat) (hx : l[i] ≤ x) :
    i + 1 ≤ l.countP fun t => decide (t ≤ x) := by
  have hsplit := List.take_append_drop (i + 1) l
  have hcount : l.countP (fun t => decide (t ≤ x)) =
      (l.take (i + 1)).countP (fun t => decide (t ≤ x)) +
        (l.drop (i + 1)).countP (fun t => decide (t ≤ x)) := by
    conv_lhs => rw [← hsplit]
    exact List.countP_append _ _ _
  have htake : (l.take (i + 1)).countP (fun t => decide (t ≤ x)) = (l.take (i + 1)).length := by
    rw [List.countP_eq_length]
    intro a ha
    obtain ⟨k, hk, hka⟩ := List.mem_iff_getElem.mp ha
    have hkl : k < l.length := lt_of_lt_of_le hk (by simp [List.length_take])
    have hki : k ≤ i := by
      have := hk
      simp only [List.length_take] at this
      omega
    have hval : l[k] ≤ x := by
      rcases Nat.lt_or_ge k i with hlt | hge
      · exact le_trans (List.pairwise_iff_getElem.mp hp k i hkl hi hlt) hx
      · have : k = i := by omega
        subst this
        exact hx
    rw [← hka]
    rw [List.getElem_take]
    exact decide_eq_true hval
  have hlen : (l.take (i + 1)).length = i + 1 := by
    simp [List.length_take]
    omega
  omega

/-- C1: for a burst of raw events in arrival order, consecutive ones at
most the debounce interval `d` apart, the debounce logic of
`Watcher.watch` (src/main.ts lines 29-46) dispatches exactly one
`updated` notification, at the time of the last event plus `d`, and none
at any other time. -/
theorem debounce_single_burst (ts : List Nat) (d : Nat) (hne : ts ≠ [])
    (hchain : ts.Chain' fun a b => a ≤ b ∧ b ≤ a + d) :
    (watchRun ts d).notifications = [ts.getLast hne + d] := by
  have hs : ts.Pairwise (· ≤ ·) :=
    List.chain'_iff_pairwise.mp (List.Chain'.imp (fun a b hab => hab.1) hchain)
  rw [watchRun_notifs ts d hs]
  obtain ⟨m, hm⟩ : ∃ m, ts.length = m + 1 := by
    cases ts with
    | nil => exact absurd rfl hne
    | cons a l => exact ⟨l.length, rfl⟩
  have hcslen : (ts.map (· + d)).length = m + 1 := by rw [List.length_map, hm]
  simp only [notifSpec, hcslen, List.range_succ, List.filterMap_append]
  have hgetD : ∀ (j : Nat) (hj : j < m + 1), (ts.map (· + d)).getD j 0 = ts[j] + d := by
    intro j hj
    rw [List.getD_eq_getElem _ _ (by omega : j < (ts.map (· + d)).length), List.getElem_map]
  have hnone : (List.range m).filterMap
      (fun (j : Nat) =>
        if 0 + ((ts.countP fun t => decide (t ≤ (ts.map (· + d)).getD j 0)) : Int) =
            (j : Int) + 1 then
          some ((ts.map (· + d)).getD j 0)
        else none) = [] := by
    rw [List.filterMap_eq_nil_iff]
    intro j hj
    have hjm : j < m := List.mem_range.mp hj
    rw [hgetD j (by omega)]
    have hgap : ts[j + 1] ≤ ts[j] + d := by
      have := (List.chain'_iff_get.mp hchain) j (by omega)
      rw [List.get_eq_getElem, List.get_eq_getElem] at this
      exact this.2
    have hcnt := countLower ts hs (j + 1) (by omega) (ts[j] + d) hgap
    rw [if_neg (by omega)]
  rw [hnone, List.nil_append]
  have hfull : (ts.countP fun t => decide (t ≤ (ts.map (· + d)).getD m 0)) = ts.length := by
    rw [List.countP_eq_length]
    intro a ha
    obtain ⟨k, hk, hka⟩ := List.mem_iff_getElem.mp ha
    have hklast : ts[k] ≤ ts[m] := by
      rcases Nat.lt_or_ge k m with hlt | hge
      · exact List.pairwise_iff_getElem.mp hs k m hk (by omega) hlt
      · have hkm : k = m := by omega
        subst hkm
        exact le_refl _
    rw [hgetD m (by omega), ← hka]
    exact decide_eq_true (by omega)
  have hlastval : ts.getLast hne = ts[m] := by
    rw [List.getLast_eq_getElem]
    exact getElemIdx ts (ts.length - 1) m (by omega) (by omega)
  rw [List.filterMap_cons,
    if_pos (show (0 : Int) +
        ((ts.countP fun t => decide (t ≤ (ts.map (· + d)).getD m 0)) : Int) = (m : Int) + 1 by
      rw [hfull]; omega)]
  simp only [List.filterMap_nil]
  rw [hlastval, hgetD m (by omega)]

/-- Witness for `debounce_single_burst` at the spec's concrete scenario:
raw events at t = 0, 50, 120 with a 200ms debounce interval give exactly
one notification, at t = 320. -/
theorem debounce_single_burst_witness :
    ([0, 50, 120] ≠ ([] : List Nat)) ∧ (watchRun [0, 50, 120] 200).notifications = [320] := by
  refine ⟨by decide, ?_⟩
  rw [debounce_single_burst [0, 50, 120] 200 (by decide)
    (by norm_num [List.chain'_cons, List.chain'_singleton])]
  decide

/-- C2: two raw events strictly more than the debounce interval `d`
apart produce two separate `updated` notifications, one per event, each
at its own event time plus `d` (src/main.ts lines 29-46). -/
theorem debounce_two_bursts (t1 t2 d : Nat) (h : t1 + d < t2) :
    (watchRun [t1, t2] d).notifications = [t1 + d, t2 + d] := by
  have h1 : ¬t2 ≤ t1 + d := by omega
  have hsched : schedule [t1, t2] d =
      [WatchAction.arrival t1, WatchAction.callback (t1 + d), WatchAction.arrival t2,
        WatchAction.callback (t2 + d)] := by
    rw [schedule]
    simp [mergeEvents, h1, Nat.le_add_right]
  rw [watchRun, hsched]
  simp [watchStep]

/-- Witness for `debounce_two_bursts`: events at t = 0 and t = 3 with a
1ms interval give two notifications, at t = 1 and t = 4. -/
theorem debounce_two_bursts_witness :
    (0 + 1 < 3) ∧ (watchRun [0, 3] 1).notifications = [1, 4] := by
  refine ⟨by decide, ?_⟩
  rw [debounce_two_bursts 0 3 1 (by decide)]

lemma countArr_cons_arr (t : Nat) (p : List WatchAction) :
    countArr (WatchAction.arrival t :: p) = countArr p + 1 := by
  simp [countArr, List.countP_cons, isArrival]

lemma countArr_cons_cb (t : Nat) (p : List WatchAction) :
    countArr (WatchAction.callback t :: p) = countArr p := by
  simp [countArr, List.countP_cons, isArrival]

lemma countCb_cons_arr (t : Nat) (p : List WatchAction) :
    countCb (WatchAction.arrival t :: p) = countCb p := by
  simp [countCb, List.countP_cons, isArrival]

lemma countCb_cons_cb (t : Nat) (p : List WatchAction) :
    countCb (WatchAction.callback t :: p) = countCb p + 1 := by
  simp [countCb, List.countP_cons, isArrival]

lemma foldl_outstanding (p : List WatchAction) (o : Int) (ns : List Nat) :
    (p.foldl watchStep ⟨o, ns⟩).outstanding = o + countArr p - countCb p := by
  induction p generalizing o ns with
  | nil => simp [countArr, countCb]
  | cons a p ih =>
    cases a with
    | arrival t =>
      rw [List.foldl_cons,
        show watchStep ⟨o, ns⟩ (WatchAction.arrival t) = ⟨o + 1, ns⟩ from rfl, ih,
        countArr_cons_arr, countCb_cons_arr]
      push_cast
      ring
    | callback t =>
      rw [List.foldl_cons,
        show watchStep ⟨o, ns⟩ (WatchAction.callback t) =
          ⟨o - 1, if o - 1 = 0 then ns ++ [t] else ns⟩ from rfl, ih,
        countArr_cons_cb, countCb_cons_cb]
      push_cast
      ring

lemma coupledTail (a : Nat) (as : List Nat) (c : Nat) (cs : List Nat)
    (h : Coupled (a :: as) (c :: cs)) : Coupled as (c :: cs) := by
  obtain ⟨h1, h2⟩ := h
  have h1a : as.length ≤ cs.length := by simpa using h1
  constructor
  · simp
    omega
  · intro k hk
    have h3 := h2 (k + 1) (by simp; omega)
    rw [List.getD_cons_succ] at h3
    simp only [List.length_cons] at h3 ⊢
    have hidx : k + 1 + (cs.length + 1 - (as.length + 1)) = k + (cs.length + 1 - as.length) := by
      omega
    rw [hidx] at h3
    exact h3

lemma coupledStrict (a : Nat) (as : List Nat) (c : Nat) (cs : List Nat)
    (h : Coupled (a :: as) (c :: cs)) (hac : ¬a ≤ c) : (a :: as).length ≤ cs.length := by
  obtain ⟨h1, h2⟩ := h
  simp only [List.length_cons] at h1 ⊢
  rcases Nat.lt_or_ge as.length cs.length with h3 | h3
  · omega
  · exfalso
    have heq : cs.length = as.length := by omega
    have h4 := h2 0 (by simp)
    simp only [List.length_cons, heq] at h4
    rw [show as.length + 1 - (as.length + 1) = 0 from by omega, Nat.add_zero,
      List.getD_cons_zero, List.getD_cons_zero] at h4
    exact hac h4

lemma coupledDropCb (a : Nat) (as : List Nat) (c : Nat) (cs : List Nat)
    (h : Coupled (a :: as) (c :: cs)) (hac : ¬a ≤ c) : Coupled (a :: as) cs := by
  have hstrict := coupledStrict a as c cs h hac
  obtain ⟨h1, h2⟩ := h
  refine ⟨hstrict, fun k hk => ?_⟩
  have h3 := h2 k hk
  simp only [List.length_cons] at h3 hstrict hk ⊢
  have hidx : k + (cs.length + 1 - (as.length + 1)) =
      (k + (cs.length - (as.length + 1))) + 1 := by omega
  rw [hidx, List.getD_cons_succ] at h3
  exact h3

lemma coupledInit (ts : List Nat) (d : Nat) : Coupled ts (ts.map (· + d)) := by
  refine ⟨by simp, fun k hk => ?_⟩
  have hlen : (ts.map (· + d)).length = ts.length := by simp
  rw [hlen, show ts.length - ts.length = 0 from by omega, Nat.add_zero,
    List.getD_eq_getElem _ _ hk, List.getD_eq_getElem _ _ (by simpa using hk),
    List.getElem_map]
  omega

lemma prefixConsCases {α : Type} (x : α) (l : List α) (p : List α) (hp : p <+: (x :: l)) :
    p = [] ∨ ∃ q, p = x :: q ∧ q <+: l := by
  obtain ⟨t, ht⟩ := hp
  cases p with
  | nil => exact Or.inl rfl
  | cons y q =>
    right
    rw [List.cons_append] at ht
    injection ht with hy hq
    exact ⟨q, by rw [hy], ⟨t, hq⟩⟩

lemma prefixCount : ∀ (as cs : List Nat), Coupled as cs → ∀ p : List WatchAction,
    p <+: mergeEvents as cs → countCb p ≤ countArr p + (cs.length - as.length) := by
  intro as cs
  induction as, cs using mergeEvents.induct with
  | case1 cs =>
    intro _ p hp
    have hlen : p.length ≤ cs.length := by
      have := hp.length_le
      rw [mergeEvents] at this
      simpa using this
    have hcb : countCb p ≤ p.length := List.countP_le_length _
    simp only [List.length_nil, Nat.sub_zero]
    omega
  | case2 a as1 ih =>
    intro h _ _
    exact absurd h.1 (by simp)
  | case3 a as1 c cs1 hac ih =>
    intro h p hp
    rw [mergeEvents, if_pos hac] at hp
    rcases prefixConsCases _ _ _ hp with rfl | ⟨q, rfl, hq⟩
    · simp [countArr, countCb]
    · have hrec := ih (coupledTail a as1 c cs1 h) q hq
      have h1 := h.1
      rw [countArr_cons_arr, countCb_cons_arr]
      simp only [List.length_cons] at h1 hrec ⊢
      omega
  | case4 a as1 c cs1 hac ih =>
    intro h p hp
    rw [mergeEvents, if_neg hac] at hp
    rcases prefixConsCases _ _ _ hp with rfl | ⟨q, rfl, hq⟩
    · simp [countArr, countCb]
    · have hrec := ih (coupledDropCb a as1 c cs1 h hac) q hq
      have hstrict := coupledStrict a as1 c cs1 h hac
      rw [countArr_cons_cb, countCb_cons_cb]
      simp only [List.length_cons] at hstrict hrec ⊢
      omega

lemma watchStep_cb_notifs (S : WatchRun) (t : Nat) :
    (watchStep S (WatchAction.callback t)).notifications =
      if S.outstanding - 1 = 0 then S.notifications ++ [t] else S.notifications := rfl

/-- C10: at every prefix `p` of the event-loop schedule, the
`outstanding` counter of `Watcher.watch` (src/main.ts line 30) equals the
number of debounce callbacks scheduled but not yet run (arrivals
processed minus callbacks processed), hence is never negative; and the
next action dispatches an `updated` notification exactly when it is a
callback whose decrement takes the counter from 1 to 0 (lines 32-35). -/
theorem outstanding_invariant (ts : List Nat) (d : Nat) (p : List WatchAction)
    (hp : p <+: schedule ts d) :
    (p.foldl watchStep ⟨0, []⟩).outstanding = (countArr p : Int) - countCb p ∧
      0 ≤ (p.foldl watchStep ⟨0, []⟩).outstanding ∧
      ∀ a : WatchAction,
        (((p ++ [a]).foldl watchStep ⟨0, []⟩).notifications ≠
            (p.foldl watchStep ⟨0, []⟩).notifications ↔
          ∃ t, a = WatchAction.callback t ∧ (p.foldl watchStep ⟨0, []⟩).outstanding = 1) := by
  have h1 : (p.foldl watchStep ⟨0, []⟩).outstanding = (countArr p : Int) - countCb p := by
    rw [foldl_outstanding]
    omega
  have h2 : countCb p ≤ countArr p := by
    have := prefixCount ts (ts.map (· + d)) (coupledInit ts d) p hp
    simpa using this
  refine ⟨h1, by rw [h1]; omega, fun a => ?_⟩
  cases a with
  | arrival t =>
    rw [List.foldl_concat,
      show (watchStep (p.foldl watchStep ⟨0, []⟩) (WatchAction.arrival t)).notifications =
        (p.foldl watchStep ⟨0, []⟩).notifications from rfl]
    constructor
    · intro hne
      exact absurd rfl hne
    · rintro ⟨t1, ht1, _⟩
      exact WatchAction.noConfusion ht1
  | callback t =>
    rw [List.foldl_concat, watchStep_cb_notifs]
    by_cases ho : (p.foldl watchStep ⟨0, []⟩).outstanding = 1
    · rw [if_pos (by omega)]
      constructor
      · intro _
        exact ⟨t, rfl, ho⟩
      · intro _ heq
        have := congrArg List.length heq
        simp at this
    · rw [if_neg (by omega)]
      constructor
      · intro hne
        exact absurd rfl hne
      · rintro ⟨t1, _, ho1⟩
        exact absurd ho1 ho

/-- Witness for `outstanding_invariant`: for one event at t = 0 with a
5ms interval, after processing the arrival the counter is 1 = 1 - 0. -/
theorem outstanding_invariant_witness :
    ([WatchAction.arrival 0] <+: schedule [0] 5) ∧
      (([WatchAction.arrival 0].foldl watchStep ⟨0, []⟩).outstanding =
          (countArr [WatchAction.arrival 0] : Int) - countCb [WatchAction.arrival 0] ∧
        0 ≤ ([WatchAction.arrival 0].foldl watchStep ⟨0, []⟩).outstanding ∧
        ∀ a : WatchAction,
          ((([WatchAction.arrival 0] ++ [a]).foldl watchStep ⟨0, []⟩).notifications ≠
              ([WatchAction.arrival 0].foldl watchStep ⟨0, []⟩).notifications ↔
            ∃ t, a = WatchAction.callback t ∧
              ([WatchAction.arrival 0].foldl watchStep ⟨0, []⟩).outstanding = 1)) := by
  have hp : [WatchAction.arrival 0] <+: schedule [0] 5 :=
    ⟨[WatchAction.callback 5], by simp [schedule, mergeEvents]⟩
  exact ⟨hp, outstanding_invariant [0] 5 [WatchAction.arrival 0] hp⟩

/-- C9: `watch()` activates monitoring exactly once: on an already-active
watcher it is a no-op that changes no state and starts no second
monitoring loop, and `watch()` is idempotent. -/
theorem watch_idempotent (s : WatcherState) :
    (s.watching = true → watchCall s = s) ∧ watchCall (watchCall s) = watchCall s := by
  constructor
  · intro h
    simp [watchCall, h]
  · by_cases h : s.watching <;> simp [watchCall, h]

/-- Witness for `watch_idempotent` on an active watcher with one loop. -/
theorem watch_idempotent_witness :
    ((⟨true, 1⟩ : WatcherState).watching = true → watchCall ⟨true, 1⟩ = ⟨true, 1⟩) ∧
      watchCall (watchCall ⟨true, 1⟩) = watchCall ⟨true, 1⟩ :=
  watch_idempotent ⟨true, 1⟩

lemma abortFold_arrivals : ∀ (ts : List Nat) (s : AWatchState),
    (ts.map AAction.arrival).foldl abortStep s =
      { s with outstanding := s.outstanding + ts.length } := by
  intro ts
  induction ts with
  | nil =>
    intro s
    simp
  | cons t ts ih =>
    intro s
    rw [List.map_cons, List.foldl_cons,
      show abortStep s (AAction.arrival t) = { s with outstanding := s.outstanding + 1 } from
        rfl, ih]
    congr 1
    push_cast [List.length_cons]
    ring

lemma abortFold_callbacks : ∀ (cs : List Nat) (hne : cs ≠ []) (w f : Bool) (ns : List Nat),
    (cs.map AAction.callback).foldl abortStep ⟨w, f, (cs.length : Int), ns⟩ =
      ⟨w, f, 0, ns ++ [cs.getLast hne]⟩ := by
  intro cs
  induction cs with
  | nil =>
    intro h
    exact absurd rfl h
  | cons c cs ih =>
    intro _ w f ns
    rw [List.map_cons, List.foldl_cons,
      show abortStep ⟨w, f, ((c :: cs).length : Int), ns⟩ (AAction.callback c) =
        ⟨w, f, ((c :: cs).length : Int) - 1,
          if ((c :: cs).length : Int) - 1 = 0 then ns ++ [c] else ns⟩ from rfl]
    by_cases hcs : cs = []
    · subst hcs
      simp
    · have hlen : ((c :: cs).length : Int) - 1 = (cs.length : Int) := by
        push_cast [List.length_cons]
        omega
      have hpos : ¬((c :: cs).length : Int) - 1 = 0 := by
        rw [hlen]
        simpa using hcs
      rw [if_neg hpos, hlen, ih hcs w f ns, List.getLast_cons hcs]

/-- C8: when the abort listener fires after the raw events but before
their deferred callbacks, cancellation clears the `watching` flag and
closes the filesystem handle (lines 50-54), yet the already-scheduled
debounce callbacks are not cancelled: they still run, and the final one
still dispatches an `updated` notification after cancellation, at the
last event time plus the debounce interval. -/
theorem abort_not_cancel_callbacks (ts : List Nat) (d : Nat) (hne : ts ≠ []) :
    ((ts.map AAction.arrival ++
          AAction.abort :: ts.map fun t => AAction.callback (t + d)).foldl
        abortStep ⟨true, false, 0, []⟩) =
      ⟨false, true, 0, [ts.getLast hne + d]⟩ := by
  have hmapne : ts.map (· + d) ≠ [] := by
    cases ts with
    | nil => exact absurd rfl hne
    | cons x xs => simp
  rw [List.foldl_append, abortFold_arrivals, List.foldl_cons,
    show abortStep { (⟨true, false, 0, []⟩ : AWatchState) with
        outstanding := (⟨true, false, 0, []⟩ : AWatchState).outstanding + ts.length }
      AAction.abort = ⟨false, true, 0 + (ts.length : Int), []⟩ from rfl]
  have hlen : (0 : Int) + (ts.length : Int) = ((ts.map (· + d)).length : Int) := by
    rw [List.length_map]
    omega
  rw [hlen, show (ts.map fun t => AAction.callback (t + d)) =
      (ts.map (· + d)).map AAction.callback from by rw [List.map_map]; rfl,
    abortFold_callbacks (ts.map (· + d)) hmapne, List.getLast_map _ _ hmapne,
    List.nil_append]

/-- Witness for `abort_not_cancel_callbacks`: one event at t = 3 with a
2ms interval and an abort in between still notifies at t = 5, with the
watcher stopped and the handle closed. -/
theorem abort_not_cancel_callbacks_witness :
    ([3] ≠ ([] : List Nat)) ∧
      (([3].map AAction.arrival ++
            AAction.abort :: [3].map fun t => AAction.callback (t + 2)).foldl
          abortStep ⟨true, false, 0, []⟩) =
        ⟨false, true, 0, [5]⟩ := by
  refine ⟨by decide, ?_⟩
  rw [abort_not_cancel_callbacks [3] 2 (by decide)]
  rfl

lemma lastIndexAux_some (pat s : List Char) : ∀ i j, lastIndexAux pat s i = some j →
    j ≤ i ∧ pat <+: s.drop j ∧ ∀ k, j < k → k ≤ i → ¬pat <+: s.drop k := by
  intro i
  induction i with
  | zero =>
    intro j h
    simp only [lastIndexAux] at h
    by_cases hp : pat <+: s
    · rw [if_pos hp] at h
      injection h with hj
      subst hj
      exact ⟨le_refl 0, by simpa using hp, fun k hk1 hk2 => absurd hk1 (by omega)⟩
    · rw [if_neg hp] at h
      exact Option.noConfusion h
  | succ i ih =>
    intro j h
    simp only [lastIndexAux] at h
    by_cases hp : pat <+: s.drop (i + 1)
    · rw [if_pos hp] at h
      injection h with hj
      subst hj
      exact ⟨le_refl _, hp, fun k hk1 hk2 => absurd hk1 (by omega)⟩
    · rw [if_neg hp] at h
      obtain ⟨h1, h2, h3⟩ := ih j h
      refine ⟨by omega, h2, fun k hk1 hk2 => ?_⟩
      rcases Nat.lt_or_ge k (i + 1) with hk | hk
      · exact h3 k hk1 (by omega)
      · have hke : k = i + 1 := by omega
        subst hke
        exact hp

lemma lastIndexAux_none (pat s : List Char) : ∀ i, lastIndexAux pat s i = none →
    ∀ k, k ≤ i → ¬pat <+: s.drop k := by
  intro i
  induction i with
  | zero =>
    intro h k hk
    simp only [lastIndexAux] at h
    by_cases hp : pat <+: s
    · rw [if_pos hp] at h
      exact Option.noConfusion h
    · have hk0 : k = 0 := by omega
      subst hk0
      simpa using hp
  | succ i ih =>
    intro h k hk
    simp only [lastIndexAux] at h
    by_cases hp : pat <+: s.drop (i + 1)
    · rw [if_pos hp] at h
      exact Option.noConfusion h
    · rw [if_neg hp] at h
      rcases Nat.lt_or_ge k (i + 1) with hk2 | hk2
      · exact ih h k (by omega)
      · have hke : k = i + 1 := by omega
        subst hke
        exact hp

lemma occursBeyond (pat s : List Char) (hne : pat ≠ []) (k : Nat) (hk : s.length < k) :
    ¬pat <+: s.drop k := by
  intro hp
  rw [List.drop_eq_nil_of_le (by omega)] at hp
  exact hne (List.eq_nil_of_length_eq_zero (by have := hp.length_le; simpa using this))

lemma lastIndexOf_some (pat s : List Char) (hne : pat ≠ []) (j : Nat)
    (h : lastIndexOf pat s = some j) :
    pat <+: s.drop j ∧ ∀ k, j < k → ¬pat <+: s.drop k := by
  obtain ⟨h1, h2, h3⟩ := lastIndexAux_some pat s s.length j h
  refine ⟨h2, fun k hk => ?_⟩
  rcases le_or_lt k s.length with hk2 | hk2
  · exact h3 k hk hk2
  · exact occursBeyond pat s hne k hk2

lemma lastIndexOf_none (pat s : List Char) (hne : pat ≠ []) (h : lastIndexOf pat s = none)
    (k : Nat) : ¬pat <+: s.drop k := by
  rcases le_or_lt k s.length with hk | hk
  · exact lastIndexAux_none pat s s.length h k hk
  · exact occursBeyond pat s hne k hk

lemma injectScript_some (script text : List Char) (i : Nat)
    (h : lastIndexOf bodyTag text = some i) :
    injectScript script text = text.take i ++ script ++ text.drop i := by
  simp only [injectScript, h]

lemma injectScript_none (script text : List Char) (h : lastIndexOf bodyTag text = none) :
    injectScript script text = text ++ script := by
  simp only [injectScript, h]

/-- C3: with watching enabled, serving a file whose resolved path ends
in `.html` yields the file text with the reload script inserted exactly
once: immediately before the last occurrence of `</body>` when one
exists (the insertion index carries an occurrence and no later index
does), otherwise appended at the end; a file whose resolved path does
not end in `.html` is served byte-identical (src/main.ts lines 141-153). -/
theorem serve_html_injection (script path content : List Char) :
    ((htmlExt <:+ path) →
        (∀ i, lastIndexOf bodyTag content = some i →
            serveContent true script path content =
              content.take i ++ script ++ content.drop i ∧
              bodyTag <+: content.drop i ∧ ∀ k, i < k → ¬bodyTag <+: content.drop k) ∧
          (lastIndexOf bodyTag content = none →
            serveContent true script path content = content ++ script ∧
              ∀ k, ¬bodyTag <+: content.drop k)) ∧
      (¬htmlExt <:+ path → serveContent true script path content = content) := by
  constructor
  · intro hhtml
    constructor
    · intro i hi
      obtain ⟨ho1, ho2⟩ := lastIndexOf_some bodyTag content (by decide) i hi
      refine ⟨?_, ho1, ho2⟩
      rw [serveContent, if_pos ⟨rfl, hhtml⟩]
      exact injectScript_some script content i hi
    · intro hnone
      refine ⟨?_, lastIndexOf_none bodyTag content (by decide) hnone⟩
      rw [serveContent, if_pos ⟨rfl, hhtml⟩]
      exact injectScript_none script content hnone
  · intro hno
    rw [serveContent, if_neg fun hc => hno hc.2]

/-- Witness for `serve_html_injection`: serving `<body>x</body>y` as
`/a.html` inserts the script before the `</body>` at index 7. -/
theorem serve_html_injection_witness :
    (htmlExt <:+ "/a.html".toList) ∧
      lastIndexOf bodyTag "<body>x</body>y".toList = some 7 ∧
      serveContent true "<s>".toList "/a.html".toList "<body>x</body>y".toList =
        "<body>x".toList ++ "<s>".toList ++ "</body>y".toList := by
  refine ⟨by decide, by decide, ?_⟩
  have h := ((serve_html_injection "<s>".toList "/a.html".toList
    "<body>x</body>y".toList).1 (by decide)).1 7 (by decide)
  rw [h.1]
  decide

/-- C4: path resolution (line 138) concatenates the root with the URL
path, appending `index.html` when the path ends in `/`, and uses the
path unchanged otherwise; in particular `/` resolves to
`<root>/index.html` and `/foo/` to `<root>/foo/index.html`. -/
theorem resolve_path_spec (root pathname : List Char) :
    ((['/'] <:+ pathname) → resolvePath root pathname = root ++ pathname ++ indexHtml) ∧
      (¬(['/'] <:+ pathname) → resolvePath root pathname = root ++ pathname) ∧
      resolvePath root "/".toList = root ++ "/index.html".toList ∧
      resolvePath root "/foo/".toList = root ++ "/foo/index.html".toList := by
  refine ⟨?_, ?_, ?_, ?_⟩
  · intro h
    rw [resolvePath, if_pos h, List.append_assoc]
  · intro h
    rw [resolvePath, if_neg h]
  · rw [resolvePath, if_pos (by decide)]
    congr 1
  · rw [resolvePath, if_pos (by decide)]
    congr 1

/-- Witness for `resolve_path_spec` on the trailing-slash branch. -/
theorem resolve_path_spec_witness :
    (['/'] <:+ "/a/".toList) ∧
      resolvePath "r".toList "/a/".toList = "r".toList ++ "/a/".toList ++ indexHtml :=
  ⟨by decide, (resolve_path_spec "r".toList "/a/".toList).1 (by decide)⟩

/-- C5: a request outside the upgrade path whose file read fails is
answered with status 404 and an empty body (lines 158-161); the server
state — broadcast set and watcher flag — is untouched, so the handling
of every other request is exactly as if the failing request had not
happened. -/
theorem failed_read_404 (fs : List Char → Option (List Char)) (script root : List Char)
    (s : ServerState) (pathname : List Char)
    (hws : ¬(s.watcherOn = true ∧ pathname = reloadEventPath))
    (hfs : fs (resolvePath root pathname) = none) :
    handleRequest fs script root s pathname = (s, ⟨404, []⟩) ∧
      ∀ pn2, handleRequest fs script root (handleRequest fs script root s pathname).1 pn2 =
        handleRequest fs script root s pn2 := by
  have h1 : handleRequest fs script root s pathname = (s, ⟨404, []⟩) := by
    rw [handleRequest, if_neg hws, handleFileRequest, hfs]
  exact ⟨h1, fun pn2 => by rw [h1]⟩

/-- Witness for `failed_read_404` with an always-failing filesystem. -/
theorem failed_read_404_witness :
    (¬((⟨true, [], 0⟩ : ServerState).watcherOn = true ∧ "/x".toList = reloadEventPath)) ∧
      ((fun _ => (none : Option (List Char))) (resolvePath "r".toList "/x".toList) = none) ∧
      handleRequest (fun _ => none) [] "r".toList ⟨true, [], 0⟩ "/x".toList =
        (⟨true, [], 0⟩, ⟨404, []⟩) ∧
      ∀ pn2, handleRequest (fun _ => none) [] "r".toList
          (handleRequest (fun _ => none) [] "r".toList ⟨true, [], 0⟩ "/x".toList).1 pn2 =
        handleRequest (fun _ => none) [] "r".toList ⟨true, [], 0⟩ pn2 := by
  have h := failed_read_404 (fun _ => none) [] "r".toList ⟨true, [], 0⟩ "/x".toList
    (by decide) rfl
  exact ⟨by decide, rfl, h.1, h.2⟩

lemma spliceRemove_erase (cs : List Nat) (c : Nat) (hc : c ∈ cs) :
    spliceRemove cs c = cs.erase c := by
  induction cs with
  | nil => cases hc
  | cons x cs ih =>
    by_cases hx : x = c
    · subst hx
      rw [spliceRemove, show indexOfJS (x :: cs) x = some 0 from by
        rw [indexOfJS, if_pos rfl], List.erase_cons_head]
      rfl
    · have hc2 : c ∈ cs := by
        rcases List.mem_cons.mp hc with h1 | h1
        · exact absurd h1.symm hx
        · exact h1
      have hidx : ∃ i, indexOfJS cs c = some i := by
        clear ih hc hx x
        induction cs with
        | nil => cases hc2
        | cons y ys ih2 =>
          by_cases hy : y = c
          · exact ⟨0, by rw [indexOfJS, if_pos hy]⟩
          · have hc3 : c ∈ ys := by
              rcases List.mem_cons.mp hc2 with h1 | h1
              · exact absurd h1.symm hy
              · exact h1
            obtain ⟨i, hi⟩ := ih2 hc3
            exact ⟨i + 1, by rw [indexOfJS, if_neg hy, hi]; rfl⟩
      obtain ⟨i, hi⟩ := hidx
      have hsp : spliceRemove cs c = cs.eraseIdx i := by
        rw [spliceRemove, hi]
      have hidxcons : indexOfJS (x :: cs) c = some (i + 1) := by
        rw [indexOfJS, if_neg hx, hi]
        rfl
      rw [spliceRemove, hidxcons]
      show (x :: cs).eraseIdx (i + 1) = (x :: cs).erase c
      rw [List.eraseIdx_cons_succ, List.erase_cons_tail (by simpa using hx), ← hsp, ih hc2]

lemma clientStep_inv (s : ServerState) (e : ClientEvent) (h : ClientsInv s) :
    ClientsInv (clientStep s e) := by
  obtain ⟨h1, h2⟩ := h
  cases e with
  | connect =>
    constructor
    · rw [show (clientStep s ClientEvent.connect).reloadClients =
        s.reloadClients ++ [s.nextClientId] from rfl, List.nodup_append]
      refine ⟨h1, List.nodup_singleton _, fun a ha hb => ?_⟩
      have := h2 a ha
      have hab : a = s.nextClientId := by simpa using hb
      omega
    · intro c hc
      rcases List.mem_append.mp hc with h3 | h3
      · exact Nat.lt_succ_of_lt (h2 c h3)
      · have : c = s.nextClientId := by simpa using h3
        subst this
        exact Nat.lt_succ_self _
  | close c =>
    have hsub : List.Sublist (spliceRemove s.reloadClients c) s.reloadClients := by
      rcases hfind : indexOfJS s.reloadClients c with _ | i
      · rw [spliceRemove, hfind]
        exact List.dropLast_sublist _
      · rw [spliceRemove, hfind]
        exact List.eraseIdx_sublist _ i
    exact ⟨List.Nodup.sublist hsub h1, fun x hx => h2 x (hsub.subset hx)⟩

lemma clientsInv_run (w : Bool) (evs : List ClientEvent) :
    ClientsInv (evs.foldl clientStep ⟨w, [], 0⟩) := by
  have hgen : ∀ (s : ServerState), ClientsInv s → ClientsInv (evs.foldl clientStep s) := by
    induction evs with
    | nil => exact fun s hs => hs
    | cons e evs ih =>
      intro s hs
      rw [List.foldl_cons]
      exact ih _ (clientStep_inv s e hs)
  exact hgen _ ⟨List.nodup_nil, by simp⟩

/-- C6: in every reachable server state each registered push client
appears exactly once in the broadcast set, and the close handler
(lines 133-135) performs first-match removal of exactly the closed
client: afterwards that client is absent and every other registered
client is still present. -/
theorem close_removes_client (w : Bool) (evs : List ClientEvent) (c : Nat)
    (hc : c ∈ (evs.foldl clientStep ⟨w, [], 0⟩).reloadClients) :
    (evs.foldl clientStep ⟨w, [], 0⟩).reloadClients.count c = 1 ∧
      (clientStep (evs.foldl clientStep ⟨w, [], 0⟩) (ClientEvent.close c)).reloadClients =
        (evs.foldl clientStep ⟨w, [], 0⟩).reloadClients.erase c ∧
      c ∉ (clientStep (evs.foldl clientStep ⟨w, [], 0⟩) (ClientEvent.close c)).reloadClients ∧
      ∀ d2 ∈ (evs.foldl clientStep ⟨w, [], 0⟩).reloadClients, d2 ≠ c →
        d2 ∈ (clientStep (evs.foldl clientStep ⟨w, [], 0⟩) (ClientEvent.close c)).reloadClients := by
  obtain ⟨h1, _⟩ := clientsInv_run w evs
  have herase : (clientStep (evs.foldl clientStep ⟨w, [], 0⟩)
      (ClientEvent.close c)).reloadClients =
      (evs.foldl clientStep ⟨w, [], 0⟩).reloadClients.erase c :=
    spliceRemove_erase _ c hc
  refine ⟨List.count_eq_one_of_mem h1 hc, herase, ?_, ?_⟩
  · rw [herase]
    intro hmem
    exact absurd rfl ((List.Nodup.mem_erase_iff h1).mp hmem).1
  · intro d2 hd2 hne
    rw [herase]
    exact (List.mem_erase_of_ne hne).mpr hd2

/-- Witness for `close_removes_client`: after two upgrades the set is
`[0, 1]`; closing client 0 leaves `[1]`. -/
theorem close_removes_client_witness :
    (0 ∈ (([ClientEvent.connect, ClientEvent.connect]).foldl clientStep
        ⟨true, [], 0⟩).reloadClients) ∧
      (([ClientEvent.connect, ClientEvent.connect]).foldl clientStep
          ⟨true, [], 0⟩).reloadClients.count 0 = 1 ∧
      (clientStep (([ClientEvent.connect, ClientEvent.connect]).foldl clientStep ⟨true, [], 0⟩)
          (ClientEvent.close 0)).reloadClients =
        (([ClientEvent.connect, ClientEvent.connect]).foldl clientStep
            ⟨true, [], 0⟩).reloadClients.erase 0 ∧
      0 ∉ (clientStep (([ClientEvent.connect, ClientEvent.connect]).foldl clientStep
          ⟨true, [], 0⟩) (ClientEvent.close 0)).reloadClients ∧
      ∀ d2 ∈ (([ClientEvent.connect, ClientEvent.connect]).foldl clientStep
          ⟨true, [], 0⟩).reloadClients, d2 ≠ 0 →
        d2 ∈ (clientStep (([ClientEvent.connect, ClientEvent.connect]).foldl clientStep
            ⟨true, [], 0⟩) (ClientEvent.close 0)).reloadClients := by
  have h := close_removes_client true [ClientEvent.connect, ClientEvent.connect] 0 (by decide)
  exact ⟨by decide, h.1, h.2.1, h.2.2.1, h.2.2.2⟩

lemma broadcastLoop_spec (ok : Nat → Bool) (cs : List Nat) :
    (broadcastLoop ok cs).1 = cs.map (fun c => (c, updatedMsg)) ∧
      (broadcastLoop ok cs).2 = (cs.filter ok).map fun c => (c, updatedMsg) := by
  induction cs with
  | nil => exact ⟨rfl, rfl⟩
  | cons c cs ih =>
    rw [broadcastLoop, List.map_cons, List.filter_cons]
    refine ⟨by rw [ih.1], ?_⟩
    by_cases h : ok c
    · rw [if_pos h, if_pos h, List.map_cons]
      simpa using ih.2
    · rw [if_neg (by simpa using h), if_neg (by simpa using h)]
      simpa using ih.2

/-- C7: on each `updated` notification the broadcast loop (lines
104-112) attempts to send the literal text `"updated"` to every client
currently in the broadcast set, in order; a failing send (`ok c = false`)
is caught and ignored, every other client — before or after the failure —
is still delivered to, and the broadcast removes no client from the set,
failing or not. -/
theorem broadcast_sends_updated (ok : Nat → Bool) (s : ServerState) :
    (broadcastStep ok s).1 = s ∧
      (broadcastStep ok s).2.1 = s.reloadClients.map (fun c => (c, updatedMsg)) ∧
      (broadcastStep ok s).2.2 = ((s.reloadClients.filter ok).map fun c => (c, updatedMsg)) ∧
      (∀ c ∈ s.reloadClients, ok c = true → (c, updatedMsg) ∈ (broadcastStep ok s).2.2) ∧
      ∀ c ∈ s.reloadClients, c ∈ (broadcastStep ok s).1.reloadClients := by
  obtain ⟨h1, h2⟩ := broadcastLoop_spec ok s.reloadClients
  refine ⟨rfl, h1, h2, fun c hcm hok => ?_, fun c hcm => hcm⟩
  rw [show (broadcastStep ok s).2.2 = (broadcastLoop ok s.reloadClients).2 from rfl, h2]
  exact List.mem_map.mpr ⟨c, List.mem_filter.mpr ⟨hcm, hok⟩, rfl⟩

/-- Witness for `broadcast_sends_updated`: with clients `[0, 1]` and the
send to client 0 failing, both sends are attempted and client 1 is still
delivered to; the set is unchanged. -/
theorem broadcast_sends_updated_witness :
    (broadcastStep (fun c => decide (c = 1)) ⟨true, [0, 1], 2⟩).1 = ⟨true, [0, 1], 2⟩ ∧
      (broadcastStep (fun c => decide (c = 1)) ⟨true, [0, 1], 2⟩).2.1 =
        ([0, 1].map fun c => (c, updatedMsg)) ∧
      (broadcastStep (fun c => decide (c = 1)) ⟨true, [0, 1], 2⟩).2.2 =
        ((([0, 1] : List Nat).filter fun c => decide (c = 1)).map fun c => (c, updatedMsg)) ∧
      (∀ c ∈ ([0, 1] : List Nat), (fun c => decide (c = 1)) c = true →
        (c, updatedMsg) ∈ (broadcastStep (fun c => decide (c = 1)) ⟨true, [0, 1], 2⟩).2.2) ∧
      ∀ c ∈ ([0, 1] : List Nat),
        c ∈ (broadcastStep (fun c => decide (c = 1)) ⟨true, [0, 1], 2⟩).1.reloadClients :=
  broadcast_sends_updated (fun c => decide (c = 1)) ⟨true, [0, 1], 2⟩

